import Mathlib

/-!
Verification development for the `InoToCPPConverter` pipeline of
`platformio/builder/tools/piomisc.py`.

The Python text-processing core is shallowly embedded over `List Char`:
strings are lists of characters, each helper of the converter becomes an
executable Lean function that mirrors the corresponding Python method, and
the external preprocessor tool is modelled as a parameter (a function from
the merged text to the tool's observable outcome).
-/

set_option autoImplicit false

namespace Piomisc

/-- Character-list view of a string literal. -/
abbrev Str := List Char

/-- Character data of a Lean string literal, used to write concrete inputs. -/
def chars (s : String) : Str := s.data

/-- Whitespace characters of Python's `\s` class and of `str.strip()`. -/
def isWS (c : Char) : Bool :=
  c = ' ' || c = '\t' || c = '\n' || c = '\r' || c = '\x0b' || c = '\x0c'

/-- Characters matched by the pattern class `[a-z_\d]` under `re.I`. -/
def isWordC (c : Char) : Bool :=
  ('a' ≤ c && c ≤ 'z') || ('A' ≤ c && c ≤ 'Z') || c.isDigit || c = '_'

/-- Characters matched by the argument-list class `[a-z_,\.\*\&\[\]\s\d]` under `re.I`. -/
def isArgC (c : Char) : Bool :=
  isWordC c || c = ',' || c = '.' || c = '*' || c = '&' || c = '[' || c = ']' || isWS c

/-- Python `str.strip()`: drop whitespace from both ends. -/
def pyStrip (s : Str) : Str :=
  ((s.dropWhile isWS).reverse.dropWhile isWS).reverse

/-- Python `contents.split("\n")`. -/
def splitNL : Str → List Str
  | [] => [[]]
  | c :: cs =>
    if c = '\n' then [] :: splitNL cs
    else
      match splitNL cs with
      | [] => [[c]]
      | l :: ls => (c :: l) :: ls

/-- Python `"\n".join(lines)`. -/
def joinNL : List Str → Str
  | [] => []
  | [l] => l
  | l :: l2 :: ls => l ++ '\n' :: joinNL (l2 :: ls)

/-- Python `"\\\n" in contents`: a backslash immediately followed by a newline. -/
def hasBSNL : Str → Bool
  | [] => false
  | [_] => false
  | a :: b :: r => (a = '\\' && b = '\n') || hasBSNL (b :: r)

/-- Python `path.replace("\\", "/")`. -/
def replBS (s : Str) : Str :=
  s.map (fun c => if c = '\\' then '/' else c)

/-- Decimal digit character for a value below ten. -/
def digitChar (n : Nat) : Char := Char.ofNat (48 + n)

/-- Decimal rendering of a natural number (fuel-driven, fuel `n + 1` suffices). -/
def natToStrAux : Nat → Nat → Str
  | 0, _ => []
  | fuel + 1, n =>
    if n < 10 then [digitChar n]
    else natToStrAux fuel (n / 10) ++ [digitChar (n % 10)]

/-- Decimal rendering of a natural number, as `"%d" % n` produces. -/
def natToStr (n : Nat) : Str := natToStrAux (n + 1) n

/-- Python `s.isdigit()` for ASCII digit strings. -/
def isDigits (s : Str) : Bool := !s.isEmpty && s.all Char.isDigit

/-- Numeric value of a digit string, as Python `int(s)` computes it. -/
def digitsToNat (s : Str) : Nat :=
  s.foldl (fun a c => a * 10 + (c.toNat - 48)) 0

/-- Helper for `pySplitSp`: split on single spaces with a split budget. -/
def splitSpAux : Str → Nat → Str → List Str
  | [], _, cur => [cur.reverse]
  | c :: cs, 0, cur => [cur.reverse ++ c :: cs]
  | c :: cs, m + 1, cur =>
    if c = ' ' then cur.reverse :: splitSpAux cs m []
    else splitSpAux cs (m + 1) (c :: cur)

/-- Python `s.split(" ", maxsplit)`. -/
def pySplitSp (s : Str) (maxsplit : Nat) : List Str := splitSpAux s maxsplit []

/-- The converter's `_parse_preproc_line_num`: recognise `# N ...` and `#line N ...`
directives and extract the numeric field. -/
def parsePreprocLineNum (line : Str) : Option Nat :=
  if line.head? = some '#' then
    let tokens := pySplitSp line 3
    if tokens.length > 2 then
      let t1 := tokens.getD 1 []
      if isDigits t1 then some (digitsToNat t1) else none
    else none
  else none

/-- Update of the logical line counter at the top of the repairer's loop:
a recognised directive resets it, any other line increments it. -/
def jmlNextLn (ln : Nat) (line : Str) : Nat :=
  match parsePreprocLineNum line with
  | some m => m
  | none => ln + 1

/-- Whether `pat` occurs contiguously inside `s`. -/
def occursIn (pat : Str) : Str → Bool
  | [] => pat.isEmpty
  | c :: cs => pat.isPrefixOf (c :: cs) || occursIn pat cs

/-- A line-marker directive `# N "path"` as the merger writes it (with `N = 1`)
and as the external preprocessor writes it in its output. -/
def hashMarker (n : Nat) (p : Str) : Str :=
  chars "# " ++ natToStr n ++ chars " \"" ++ p ++ chars "\""

/-- A corrective directive `#line N "path"` as emitted by the repairer and the
prototype synthesizer. -/
def lineDirective (n : Nat) (p : Str) : Str :=
  chars "#line " ++ natToStr n ++ chars " \"" ++ p ++ chars "\""

/-- The per-fragment marker `'# 1 "%s"' % node.get_path().replace("\\", "/")`. -/
def fragMarker (p : Str) : Str := hashMarker 1 (replBS p)

/-- Python `line.endswith('";')`. -/
def endsQS (l : Str) : Bool :=
  match l.reverse with
  | ';' :: '"' :: _ => true
  | _ => false

/-- Append text to the most recently emitted line (`newlines[len(newlines) - 1] += x`);
the accumulator is kept in reverse order, so the head is the last emitted line. -/
def consHead (acc : List Str) (x : Str) : List Str :=
  match acc with
  | [] => [x]
  | h :: t => (h ++ x) :: t

/-- One iteration of the loop in `_join_multiline_strings`: state is
(logical line counter, string-open flag, emitted lines in reverse order). -/
def jmlStep (mainIno : Str) (st : Nat × Bool × List Str) (line : Str) :
    Nat × Bool × List Str :=
  let ln' := jmlNextLn st.1 line
  if line.getLast? = some '\\' then
    if line.head? = some '"' then (ln', true, line.dropLast :: st.2.2)
    else if st.2.1 then (ln', st.2.1, consHead st.2.2 line.dropLast)
    else (ln', st.2.1, line :: st.2.2)
  else if st.2.1 && endsQS line then
    (ln', false, lineDirective ln' (replBS mainIno) :: consHead st.2.2 line)
  else (ln', st.2.1, line :: st.2.2)

/-- The converter's `_join_multiline_strings(contents)` with `self._main_ino = mainIno`. -/
def joinMultilineStrings (mainIno : Str) (contents : Str) : Str :=
  if hasBSNL contents then
    joinNL (((splitNL contents).foldl (jmlStep mainIno) (0, false, [])).2.2.reverse)
  else contents

/-- Logical line numbers that C-preprocessor line-marker semantics assign to each
physical line: a directive carrying `N` makes the following line map to `N`; other
lines count up by one.  Directive lines themselves carry no source line. -/
def cppNums : List Str → Nat → List (Option Nat)
  | [], _ => []
  | l :: ls, cur =>
    match parsePreprocLineNum l with
    | some m => none :: cppNums ls m
    | none => some cur :: cppNums ls (cur + 1)

/-- Logical line number of the `i`-th physical line under marker semantics. -/
def cppNumAt (lines : List Str) (i : Nat) : Option Nat :=
  ((cppNums lines 1).get? i).join

/-- The converter's `_get_total_lines(contents)`. -/
def getTotalLinesAux : List Str → Nat → Nat
  | [], total => total
  | l :: ls, total =>
    match parsePreprocLineNum l with
    | some n => total + n
    | none => getTotalLinesAux ls (total + 1)

/-- Scan the lines bottom-up for the nearest directive and add the offset. -/
def getTotalLines (contents : Str) : Nat :=
  getTotalLinesAux (splitNL contents).reverse 0

/-- Case-insensitive literal prefix match; `pat` is given lowercase.  Returns the
rest of the input on success. -/
def lcPrefix : Str → Str → Option Str
  | [], s => some s
  | _ :: _, [] => none
  | p :: ps, c :: cs => if c.toLower = p then lcPrefix ps cs else none

/-- Match of `DETECTMAIN_RE = void\s+(setup|loop)\s*\(` (case-insensitive) starting
at the head of the input. -/
def detectMainAt (s : Str) : Bool :=
  match lcPrefix (chars "void") s with
  | none => false
  | some r1 =>
    if (r1.takeWhile isWS).isEmpty then false
    else
      let r2 := r1.dropWhile isWS
      match (lcPrefix (chars "setup") r2).orElse (fun _ => lcPrefix (chars "loop") r2) with
      | none => false
      | some r3 =>
        match r3.dropWhile isWS with
        | '(' :: _ => true
        | _ => false

/-- Search version of `DETECTMAIN_RE` (a match anywhere in the text). -/
def detectMain : Str → Bool
  | [] => false
  | c :: cs => detectMainAt (c :: cs) || detectMain cs

/-- The converter's `is_main_node(contents)`. -/
def isMainNode (contents : Str) : Bool := detectMain contents

/-- A sketch fragment node: original path plus raw text, as the build engine
hands it to the converter. -/
structure Node where
  path : Str
  contents : Str
deriving DecidableEq

/-- The two lines the merger emits for one fragment: its marker and its text. -/
def blockOf (n : Node) : List Str := [fragMarker n.path, n.contents]

/-- The loop of `merge`: accumulate `(lines, _main_ino)` over the fragments.
Main fragments are prepended and recorded; others are appended. -/
def mergeLoop : List Node → List Str → Option Str → List Str × Option Str
  | [], lines, m => (lines, m)
  | n :: ns, lines, m =>
    if isMainNode n.contents then mergeLoop ns (blockOf n ++ lines) (some n.path)
    else mergeLoop ns (lines ++ blockOf n) m

/-- Failure modes of the Python code that the embedding makes explicit. -/
inductive PyErr
  | assertionError
deriving DecidableEq

/-- The merged translation unit's synthetic platform include line. -/
def includeLine : Str := chars "#include <Arduino.h>"

/-- The converter's `merge(nodes)`: `assert nodes` first, then the accumulation
loop, the `_main_ino` default, and the final `"\n".join` with the platform
include prepended.  Returns the merged text (or `none` when no lines were
accumulated) together with the designated primary fragment path. -/
def merge : List Node → Except PyErr (Option Str × Str)
  | [] => .error .assertionError
  | n0 :: ns =>
    let r := mergeLoop (n0 :: ns) [] none
    let mainIno := r.2.getD n0.path
    .ok (if r.1.isEmpty then none else some (joinNL (includeLine :: r.1)), mainIno)

/-- Parse one return-type token of `PROTOTYPE_RE`: `[a-z_\d]+\*?\s+`.
Returns the consumed text and the rest. -/
def parseTypeTok (s : Str) : Option (Str × Str) :=
  let w := s.takeWhile isWordC
  if w.isEmpty then none
  else
    let r := s.dropWhile isWordC
    let (star, r2) := match r with
      | '*' :: t => (['*'], t)
      | _ => ([], r)
    let ws := r2.takeWhile isWS
    if ws.isEmpty then none
    else some (w ++ star ++ ws, r2.dropWhile isWS)

/-- Parse the name and argument list of `PROTOTYPE_RE`:
`([a-z_\d]+\s*)\([a-z_,\.\*\&\[\]\s\d]*\)`.  Returns the name capture
(group 3), the consumed text, and the rest. -/
def parseNameArgs (s : Str) : Option (Str × Str × Str) :=
  let w := s.takeWhile isWordC
  if w.isEmpty then none
  else
    let r := s.dropWhile isWordC
    let g3 := w ++ r.takeWhile isWS
    match r.dropWhile isWS with
    | '(' :: r2 =>
      (match r2.dropWhile isArgC with
       | ')' :: r3 => some (g3, g3 ++ '(' :: r2.takeWhile isArgC ++ [')'], r3)
       | _ => none)
    | _ => none

/-- Parse the trailing `\s*\{` of `PROTOTYPE_RE`. -/
def parseBraceTail (s : Str) : Option Str :=
  match s.dropWhile isWS with
  | '{' :: r => some r
  | _ => none

/-- Match of `PROTOTYPE_RE` at the head of the input, with the quantifier
`{1,2}` on the type group tried greedily (two tokens first, then one).
Returns (group 1, group 2 = last type token, group 3 = name, rest). -/
def matchProtoAt (s : Str) : Option (Str × Str × Str × Str) :=
  match parseTypeTok s with
  | none => none
  | some (t1, r1) =>
    let two : Option (Str × Str × Str × Str) := do
      let (t2, r2) ← parseTypeTok r1
      let (g3, na, r3) ← parseNameArgs r2
      let r4 ← parseBraceTail r3
      pure (t1 ++ t2 ++ na, t2, g3, r4)
    match two with
    | some x => some x
    | none => do
      let (g3, na, r3) ← parseNameArgs r1
      let r4 ← parseBraceTail r3
      pure (t1 ++ na, t1, g3, r4)

/-- One match produced by `PROTOTYPE_RE.finditer`: its start offset and the
three captured groups. -/
structure PMatch where
  mstart : Nat
  g1 : Str
  g2 : Str
  g3 : Str
deriving DecidableEq

/-- Scanner for `PROTOTYPE_RE.finditer`: try the pattern at every line start
(`^` under `re.M`), resuming after the end of each match.  The fuel argument
is at least the number of remaining characters plus one. -/
def finditerProtoAux : Nat → Str → Nat → Bool → List PMatch
  | 0, _, _, _ => []
  | _ + 1, [], _, _ => []
  | fuel + 1, c :: cs, pos, atLS =>
    if atLS then
      match matchProtoAt (c :: cs) with
      | some (g1, g2, g3, rest) =>
        if rest.length < (c :: cs).length then
          let len := (c :: cs).length - rest.length
          { mstart := pos, g1 := g1, g2 := g2, g3 := g3 } ::
            finditerProtoAux fuel rest (pos + len)
              (((c :: cs).take len).getLast? = some '\n')
        else finditerProtoAux fuel cs (pos + 1) (c = '\n')
      | none => finditerProtoAux fuel cs (pos + 1) (c = '\n')
    else finditerProtoAux fuel cs (pos + 1) (c = '\n')

/-- All matches of `PROTOTYPE_RE` over the text, in order. -/
def finditerProto (s : Str) : List PMatch :=
  finditerProtoAux (s.length + 1) s 0 true

/-- The reserved keyword set of `_parse_prototypes`. -/
def reservedKW : List Str := [chars "if", chars "else", chars "while"]

/-- The converter's `_parse_prototypes(contents)`: keep only matches whose
stripped group 2 and group 3 avoid the reserved keywords
(`set([g2.strip(), g3.strip()]) & reserved_keywords` empty). -/
def parsePrototypes (contents : Str) : List PMatch :=
  (finditerProto contents).filter
    (fun m => decide (pyStrip m.g2 ∉ reservedKW ∧ pyStrip m.g3 ∉ reservedKW))

/-- The synthesized declaration block: `"%s;" % ";\n".join(group-1 texts)`. -/
def protoLine (protos : List PMatch) : Str :=
  (List.intercalate (chars ";\n") (protos.map PMatch.g1)) ++ [';']

/-- Match of `PROTOPTRS_TPLRE = \([^&\(]*&(names)[^\)]*\)` at the head of the
input: an opening parenthesis, then characters other than `&` and `(` up to an
ampersand, then one of the candidate names, then a closing parenthesis further
right. -/
def ptrMatchAt (names : List Str) : Str → Bool
  | '(' :: rest =>
    (match rest.dropWhile (fun c => !(c = '&' || c = '(')) with
     | '&' :: r2 =>
       names.any (fun nm => nm.isPrefixOf r2 && (r2.drop nm.length).contains ')')
     | _ => false)
  | _ => false

/-- Leftmost match position of `PROTOPTRS_TPLRE`, as `re.search` reports it. -/
def searchProtoPtrs (names : List Str) : Str → Option Nat
  | [] => none
  | c :: cs =>
    if ptrMatchAt names (c :: cs) then some 0
    else (searchProtoPtrs names cs).map (· + 1)

/-- Python `contents.rfind("\n", 0, endPos)`: highest newline index below
`endPos`, or `-1`. -/
def pyRfindNL (s : Str) (endPos : Nat) : Int :=
  match ((s.take endPos).reverse).findIdx? (· = '\n') with
  | some j => ((s.take endPos).length - 1 - j : Nat)
  | none => -1

/-- Resolve a possibly negative Python slice index against a length. -/
def pySliceIdx (len : Nat) (i : Int) : Nat :=
  if 0 ≤ i then i.toNat else len - (-i).toNat

/-- The insertion point computed by `append_prototypes`: the first surviving
candidate's start, moved back to the preceding line break when a
pointer-to-function reference to a candidate name occurs earlier. -/
def protoSplitIdx (contents : Str) : Nat :=
  match parsePrototypes contents with
  | [] => 0
  | p :: ps =>
    let names := (p :: ps).map (fun m => pyStrip m.g3)
    let splitPos : Int :=
      match searchProtoPtrs names (contents.take p.mstart) with
      | some ptrStart => pyRfindNL contents ptrStart
      | none => (p.mstart : Int)
    pySliceIdx contents.length splitPos

/-- The converter's `append_prototypes(contents)` with `self._main_ino = mainIno`. -/
def appendPrototypes (mainIno : Str) (contents : Str) : Str :=
  match parsePrototypes contents with
  | [] => contents
  | p :: ps =>
    let j := protoSplitIdx contents
    joinNL [pyStrip (contents.take j),
            protoLine (p :: ps),
            lineDirective (getTotalLines (contents.take j)) (replBS mainIno),
            pyStrip (contents.drop j)]

/-- Observable outcome of one external preprocessor invocation: the exit code
reported by `env.Execute` and whether the output file exists afterwards,
together with its text. -/
structure ToolRun where
  exitCode : Int
  produced : Bool
  output : Str

/-- The converter's `_gcc_preprocess`: the tool is executed (its exit status is
not consulted) and the method returns `isfile(out_file)`. -/
def gccPreprocess (run : ToolRun) : Bool := run.produced

/-- The converter's `process(contents)`: assert the preprocessing step, read the
tool's output back, repair multiline strings, synthesize prototypes, and return
the output path with the final text. -/
def process (tool : Str → ToolRun) (mainIno : Str) (contents : Str) :
    Except PyErr (Str × Str) :=
  let run := tool contents
  if gccPreprocess run then
    .ok (mainIno ++ chars ".cpp",
         appendPrototypes mainIno (joinMultilineStrings mainIno run.output))
  else .error .assertionError

/-- The converter's `convert(nodes)`: merge, treat a falsy merge result as a
no-op, otherwise process. -/
def convert (tool : Str → ToolRun) (nodes : List Node) :
    Except PyErr (Option (Str × Str)) :=
  match merge nodes with
  | .error e => .error e
  | .ok (contentsOpt, mainIno) =>
    match contentsOpt with
    | none => .ok none
    | some c =>
      if c.isEmpty then .ok none
      else (process tool mainIno c).map some

/-! ### Basic lemmas about the line splitting and joining helpers -/

theorem joinNL_cons (l : Str) (ls : List Str) (h : ls ≠ []) :
    joinNL (l :: ls) = l ++ '\n' :: joinNL ls := by
  cases ls with
  | nil => exact absurd rfl h
  | cons l2 ls' => rfl

theorem splitNL_ne_nil (s : Str) : splitNL s ≠ [] := by
  cases s with
  | nil => simp [splitNL]
  | cons c cs =>
    by_cases h : c = '\n'
    · simp [splitNL, h]
    · simp only [splitNL, if_neg h]
      cases splitNL cs <;> simp

theorem joinNL_splitNL (s : Str) : joinNL (splitNL s) = s := by
  induction s with
  | nil => rfl
  | cons c cs ih =>
    by_cases h : c = '\n'
    · subst h
      rw [show splitNL ('\n' :: cs) = [] :: splitNL cs by simp [splitNL]]
      rw [joinNL_cons _ _ (splitNL_ne_nil cs), ih]
      rfl
    · simp only [splitNL, if_neg h]
      rcases hs : splitNL cs with _ | ⟨l, ls⟩
      · exact absurd hs (splitNL_ne_nil cs)
      · cases ls with
        | nil =>
          have : joinNL [l] = cs := by rw [← ih, hs]
          simpa [joinNL] using congrArg (c :: ·) this
        | cons l2 ls' =>
          have : joinNL (l :: l2 :: ls') = cs := by rw [← ih, hs]
          calc joinNL ((c :: l) :: l2 :: ls')
              = (c :: l) ++ '\n' :: joinNL (l2 :: ls') := rfl
            _ = c :: (l ++ '\n' :: joinNL (l2 :: ls')) := rfl
            _ = c :: cs := by rw [show l ++ '\n' :: joinNL (l2 :: ls') = joinNL (l :: l2 :: ls') from rfl, this]

theorem splitNL_cons_ne (c : Char) (cs : Str) (h : c ≠ '\n') (l : Str) (ls : List Str)
    (hs : splitNL cs = l :: ls) : splitNL (c :: cs) = (c :: l) :: ls := by
  simp [splitNL, h, hs]

theorem splitNL_append_nl (a b : Str) :
    splitNL (a ++ '\n' :: b) = splitNL a ++ splitNL b := by
  induction a with
  | nil => simp [splitNL]
  | cons c cs ih =>
    by_cases h : c = '\n'
    · simp [splitNL, h, ih]
    · rcases hs : splitNL cs with _ | ⟨l, ls⟩
      · exact absurd hs (splitNL_ne_nil cs)
      · have h1 : splitNL (cs ++ '\n' :: b) = l :: (ls ++ splitNL b) := by
          rw [ih, hs]; rfl
        rw [List.cons_append, splitNL_cons_ne c _ h _ _ h1,
            splitNL_cons_ne c _ h _ _ hs]
        rfl

theorem splitNL_of_no_nl (l : Str) (h : ('\n' : Char) ∉ l) : splitNL l = [l] := by
  induction l with
  | nil => rfl
  | cons c cs ih =>
    have hc : c ≠ '\n' := fun hc => h (hc ▸ List.mem_cons_self c cs)
    have hcs : ('\n' : Char) ∉ cs := fun hm => h (List.mem_cons_of_mem c hm)
    simp [splitNL, hc, ih hcs]

theorem splitNL_joinNL_flat (L : List Str) (h : L ≠ []) :
    splitNL (joinNL L) = L.flatMap splitNL := by
  induction L with
  | nil => exact absurd rfl h
  | cons l ls ih =>
    cases ls with
    | nil => simp [joinNL, List.flatMap]
    | cons l2 ls' =>
      rw [joinNL_cons _ _ (by simp), splitNL_append_nl, ih (by simp)]
      simp [List.flatMap]

theorem splitNL_joinNL_lines (L : List Str) (hne : L ≠ [])
    (h : ∀ l ∈ L, ('\n' : Char) ∉ l) : splitNL (joinNL L) = L := by
  rw [splitNL_joinNL_flat L hne]
  induction L with
  | nil => rfl
  | cons l ls ih =>
    have h1 := splitNL_of_no_nl l (h l (List.mem_cons_self l ls))
    by_cases hn : ls = []
    · subst hn; simp [List.flatMap, h1]
    · simp only [List.flatMap_cons, h1]
      rw [show ls.flatMap splitNL = ls from ih hn (fun x hx => h x (List.mem_cons_of_mem l hx))]
      rfl

theorem hasBSNL_of_infix (a b : Str) : hasBSNL (a ++ '\\' :: '\n' :: b) = true := by
  induction a with
  | nil => simp [hasBSNL]
  | cons c cs ih =>
    cases cs with
    | nil => simp [hasBSNL]
    | cons c2 cs' =>
      have ih' : hasBSNL (c2 :: (cs' ++ '\\' :: '\n' :: b)) = true := by
        simpa using ih
      simp only [List.cons_append, hasBSNL, List.append_eq]
      simp only [List.cons_append] at ih'
      simp [ih']

/-! ### Claim C1: behavior of the conversion on an empty fragment collection -/

/-- C1: on an empty fragment collection the conversion does *not* silently
no-op: `merge` begins with `assert nodes`, so `convert([])` raises an
`AssertionError` before the falsy-contents no-op branch can run. -/
theorem convert_empty_asserts (tool : Str → ToolRun) :
    convert tool [] = Except.error PyErr.assertionError := rfl

/-! ### Claim C2: failure conditions of the preprocessor bridge -/

/-- C2 (amended): a conversion run fails fatally exactly when the external
tool does not produce the output file.  The exit code reported by
`env.Execute` is discarded by `_gcc_preprocess`, so a non-zero exit with the
output file present is not a failure. -/
theorem process_fails_iff_no_output (tool : Str → ToolRun) (mainIno contents : Str) :
    process tool mainIno contents = Except.error PyErr.assertionError ↔
      (tool contents).produced = false := by
  unfold process gccPreprocess
  by_cases h : (tool contents).produced <;> simp [h]

/-- C2 counterexample: a preprocessor run that exits with code 1 but still
produces the output file is accepted by `process`, refuting the claim that a
non-zero exit causes failure. -/
theorem process_accepts_nonzero_exit :
    process (fun _ => ⟨1, true, chars "int x;"⟩) (chars "m.ino") (chars "y")
        = Except.ok (chars "m.ino.cpp", chars "int x;") ∧ (1 : Int) ≠ 0 :=
  ⟨rfl, by decide⟩

/-! ### Claim C6: reserved keywords never survive prototype parsing -/

/-- C6: every candidate surviving `_parse_prototypes` has a stripped name
token and a stripped return-type token outside the reserved set
`{if, else, while}`; matches on those keywords are discarded. -/
theorem prototypes_exclude_reserved (contents : Str) (m : PMatch)
    (hm : m ∈ parsePrototypes contents) :
    pyStrip m.g2 ∉ reservedKW ∧ pyStrip m.g3 ∉ reservedKW := by
  have h := (List.mem_filter.mp hm).2
  exact of_decide_eq_true h

/-- C6 witness: `void foo() {` yields the surviving candidate
`(0, "void foo()", "void ", "foo")`, whose tokens avoid the reserved set. -/
theorem prototypes_exclude_reserved_witness :
    (⟨0, chars "void foo()", chars "void ", chars "foo"⟩ : PMatch)
        ∈ parsePrototypes (chars "void foo() \x7b") ∧
      pyStrip (chars "void ") ∉ reservedKW ∧ pyStrip (chars "foo") ∉ reservedKW :=
  ⟨by decide,
   prototypes_exclude_reserved (chars "void foo() \x7b")
     ⟨0, chars "void foo()", chars "void ", chars "foo"⟩ (by decide)⟩

/-! ### Claim C7: idempotence of the multiline string repairer -/

/-- C7 counterexample: repairing `"abc\\⏎xyz` (a literal opened with a
doubled backslash and never closed) strips one backslash per pass, so the
repairer is not idempotent. -/
theorem jml_not_idempotent :
    joinMultilineStrings (chars "m.ino")
        (joinMultilineStrings (chars "m.ino") (chars "\"abc\\\\\nxyz"))
      ≠ joinMultilineStrings (chars "m.ino") (chars "\"abc\\\\\nxyz") := by
  decide

/-- C7 (amended): the repairer is idempotent on every input whose repaired
output contains no backslash-newline sequence (in particular whenever every
opened literal is properly closed); re-repair then takes the fast path and
returns the output unchanged. -/
theorem jml_idempotent_of_clean_output (mainIno s : Str)
    (h : hasBSNL (joinMultilineStrings mainIno s) = false) :
    joinMultilineStrings mainIno (joinMultilineStrings mainIno s)
      = joinMultilineStrings mainIno s := by
  set t := joinMultilineStrings mainIno s with ht
  rw [joinMultilineStrings, h]
  simp

/-- C7 witness: a two-line literal that closes properly; its repaired output
is clean and a second repair pass leaves it unchanged. -/
theorem jml_idempotent_of_clean_output_witness :
    hasBSNL (joinMultilineStrings (chars "m.ino") (chars "\"ab\\\ncd\";")) = false ∧
    joinMultilineStrings (chars "m.ino")
        (joinMultilineStrings (chars "m.ino") (chars "\"ab\\\ncd\";"))
      = joinMultilineStrings (chars "m.ino") (chars "\"ab\\\ncd\";") :=
  ⟨by decide, jml_idempotent_of_clean_output _ _ (by decide)⟩

/-! ### Claim C8: the repairer is the identity without joined literals -/

theorem jmlFold_pass (mainIno : Str) :
    ∀ (ls : List Str) (ln : Nat) (acc : List Str),
      (∀ l ∈ ls, ¬(l.head? = some '"' ∧ l.getLast? = some '\\')) →
      (ls.foldl (jmlStep mainIno) (ln, false, acc)).2.2 = ls.reverse ++ acc := by
  intro ls
  induction ls with
  | nil => intro ln acc _; simp
  | cons l ls' ih =>
    intro ln acc h
    have hl := h l (List.mem_cons_self l ls')
    have hln : jmlStep mainIno (ln, false, acc) l =
        (jmlNextLn ln l, false, l :: acc) := by
      unfold jmlStep
      by_cases h1 : l.getLast? = some '\\'
      · have h2 : l.head? ≠ some '"' := fun h2 => hl ⟨h2, h1⟩
        simp [h1, h2]
      · simp [h1]
    rw [List.foldl_cons, hln, ih _ (l :: acc)
          (fun x hx => h x (List.mem_cons_of_mem l hx))]
    simp

/-- C8: if no physical line of the input both opens a string literal and ends
with a continuation backslash — in particular if the text has no
backslash-newline sequence at all, which takes the fast path — the repairer
returns the input unchanged, byte for byte. -/
theorem jml_identity_without_joined_literals (mainIno s : Str)
    (h : hasBSNL s = false ∨
         ∀ l ∈ splitNL s, ¬(l.head? = some '"' ∧ l.getLast? = some '\\')) :
    joinMultilineStrings mainIno s = s := by
  by_cases hb : hasBSNL s
  · rcases h with h | h
    · rw [h] at hb; exact absurd hb (by simp)
    · rw [joinMultilineStrings, if_pos hb,
          jmlFold_pass mainIno (splitNL s) 0 [] h]
      simp [joinNL_splitNL]
  · rw [joinMultilineStrings, if_neg hb]

/-- C8 witness: a two-line fragment with no continuation backslashes is
returned unchanged. -/
theorem jml_identity_without_joined_literals_witness :
    (∀ l ∈ splitNL (chars "int a;\nfoo();"),
        ¬(l.head? = some '"' ∧ l.getLast? = some '\\')) ∧
    joinMultilineStrings (chars "m.ino") (chars "int a;\nfoo();")
      = chars "int a;\nfoo();" :=
  ⟨by decide, jml_identity_without_joined_literals _ _ (Or.inr (by decide))⟩

/-! ### Lemmas about the merger -/

theorem mergeLoop_append (a b : List Node) (lines : List Str) (m : Option Str) :
    mergeLoop (a ++ b) lines m
      = mergeLoop b (mergeLoop a lines m).1 (mergeLoop a lines m).2 := by
  induction a generalizing lines m with
  | nil => rfl
  | cons n ns ih =>
    simp only [List.cons_append, mergeLoop]
    by_cases hn : isMainNode n.contents <;> simp [hn, ih]

theorem mergeLoop_nonmain (ns : List Node) (lines : List Str) (m : Option Str)
    (h : ∀ x ∈ ns, isMainNode x.contents = false) :
    mergeLoop ns lines m = (lines ++ ns.flatMap blockOf, m) := by
  induction ns generalizing lines with
  | nil => simp [mergeLoop]
  | cons n ns' ih =>
    have hn := h n (List.mem_cons_self n ns')
    simp only [mergeLoop, hn]
    rw [ih _ (fun x hx => h x (List.mem_cons_of_mem n hx))]
    simp

theorem merge_of_loop (n0 : Node) (ns : List Node) (lines : List Str) (mi : Str)
    (h : mergeLoop (n0 :: ns) [] none = (lines, some mi)) (hl : lines ≠ []) :
    merge (n0 :: ns) = Except.ok (some (joinNL (includeLine :: lines)), mi) := by
  cases lines with
  | nil => exact absurd rfl hl
  | cons a as => simp only [merge, h]; simp

/-! ### Claim C4: a unique entry-point fragment is ordered first -/

/-- C4: when exactly one fragment matches the entry-point pattern, its
marker-plus-text block immediately follows the platform include regardless of
its position in the collection, and its path becomes the primary path. -/
theorem merge_single_main (pre post : List Node) (m : Node)
    (hpre : ∀ x ∈ pre, isMainNode x.contents = false)
    (hm : isMainNode m.contents = true)
    (hpost : ∀ x ∈ post, isMainNode x.contents = false) :
    merge (pre ++ m :: post) =
      Except.ok (some (joinNL (includeLine ::
          (blockOf m ++ (pre ++ post).flatMap blockOf))), m.path) := by
  have hloop : mergeLoop (pre ++ m :: post) [] none
      = (blockOf m ++ (pre ++ post).flatMap blockOf, some m.path) := by
    rw [mergeLoop_append, mergeLoop_nonmain pre [] none hpre]
    simp only [List.nil_append]
    rw [show (mergeLoop (m :: post) (pre.flatMap blockOf) none)
          = mergeLoop post (blockOf m ++ pre.flatMap blockOf) (some m.path) by
        simp [mergeLoop, hm]]
    rw [mergeLoop_nonmain post _ _ hpost]
    simp [List.flatMap_append, List.append_assoc]
  cases pre with
  | nil =>
    exact merge_of_loop m post _ _ hloop (by simp [blockOf])
  | cons p pre' =>
    exact merge_of_loop p (pre' ++ m :: post) _ _ hloop (by simp [blockOf])

/-- C4 witness: a main fragment placed second among three is hoisted to the
front of the merged unit and designated primary. -/
theorem merge_single_main_witness :
    isMainNode (chars "void setup() \x7b\x7d") = true ∧
    merge [⟨chars "a.ino", chars "int x;"⟩,
           ⟨chars "b.ino", chars "void setup() \x7b\x7d"⟩,
           ⟨chars "c.ino", chars "int y;"⟩]
      = Except.ok (some (joinNL (includeLine ::
          (blockOf ⟨chars "b.ino", chars "void setup() \x7b\x7d"⟩ ++
           ([⟨chars "a.ino", chars "int x;"⟩,
             ⟨chars "c.ino", chars "int y;"⟩] : List Node).flatMap blockOf))),
          chars "b.ino") :=
  ⟨by decide,
   merge_single_main [⟨chars "a.ino", chars "int x;"⟩]
     [⟨chars "c.ino", chars "int y;"⟩]
     ⟨chars "b.ino", chars "void setup() \x7b\x7d"⟩
     (by decide) (by decide) (by decide)⟩

/-! ### Claim C10: with several entry-point fragments the last one wins -/

/-- C10: each matching fragment's block is prepended in turn, so the *last*
matching fragment in input order heads the merged unit and its path is the
designated primary path. -/
theorem merge_last_main_first (pre post : List Node) (m : Node)
    (hm : isMainNode m.contents = true)
    (hpost : ∀ x ∈ post, isMainNode x.contents = false)
    (hmore : ∃ x ∈ pre, isMainNode x.contents = true) :
    ∃ rest, merge (pre ++ m :: post) =
      Except.ok (some (joinNL (includeLine :: (blockOf m ++ rest))), m.path) := by
  have hloop : mergeLoop (pre ++ m :: post) [] none
      = (blockOf m ++ ((mergeLoop pre [] none).1 ++ post.flatMap blockOf),
         some m.path) := by
    rw [mergeLoop_append]
    rw [show (mergeLoop (m :: post) (mergeLoop pre [] none).1 (mergeLoop pre [] none).2)
          = mergeLoop post (blockOf m ++ (mergeLoop pre [] none).1) (some m.path) by
        simp [mergeLoop, hm]]
    rw [mergeLoop_nonmain post _ _ hpost]
    simp [List.append_assoc]
  refine ⟨(mergeLoop pre [] none).1 ++ post.flatMap blockOf, ?_⟩
  cases pre with
  | nil => exact merge_of_loop m post _ _ hloop (by simp [blockOf])
  | cons p pre' => exact merge_of_loop p (pre' ++ m :: post) _ _ hloop (by simp [blockOf])

/-- C10 witness: with two entry-point fragments, the later one (`b.ino`) ends
up first in the merged unit and anchors the primary path. -/
theorem merge_last_main_first_witness :
    isMainNode (chars "void setup() \x7b\x7d") = true ∧
    (∃ x ∈ ([⟨chars "a.ino", chars "void loop() \x7b\x7d"⟩] : List Node),
        isMainNode x.contents = true) ∧
    ∃ rest, merge ([⟨chars "a.ino", chars "void loop() \x7b\x7d"⟩] ++
        ⟨chars "b.ino", chars "void setup() \x7b\x7d"⟩ :: []) =
      Except.ok (some (joinNL (includeLine ::
          (blockOf ⟨chars "b.ino", chars "void setup() \x7b\x7d"⟩ ++ rest))),
        chars "b.ino") :=
  ⟨by decide, by decide,
   merge_last_main_first [⟨chars "a.ino", chars "void loop() \x7b\x7d"⟩] []
     ⟨chars "b.ino", chars "void setup() \x7b\x7d"⟩
     (by decide) (by decide) ⟨⟨chars "a.ino", chars "void loop() \x7b\x7d"⟩, by decide⟩⟩

/-! ### Claim C9: the platform include directive in the merged unit -/

theorem mem_replBS {a : Char} {p : Str} (h : a ∈ replBS p) : a = '/' ∨ a ∈ p := by
  obtain ⟨c, hc, he⟩ := List.mem_map.mp h
  by_cases hb : c = '\\'
  · left; rw [← he, if_pos hb]
  · right; rw [← he, if_neg hb]; exact hc

theorem no_nl_fragMarker (p : Str) (hp : ('\n' : Char) ∉ p) :
    ('\n' : Char) ∉ fragMarker p := by
  intro hmem
  simp only [fragMarker, hashMarker, chars, List.mem_append] at hmem
  rcases hmem with ((((h | h) | h) | h) | h)
  · revert h; decide
  · revert h; decide
  · revert h; decide
  · rcases mem_replBS h with h' | h'
    · exact absurd h' (by decide)
    · exact hp h'
  · revert h; decide

theorem fragMarker_ne_include (p : Str) : fragMarker p ≠ includeLine := by
  intro h
  have h2 : (some ' ' : Option Char) = some 'i' :=
    congrArg (fun l => l.get? 1) h
  exact absurd h2 (by decide)

theorem mergeLoop_count_include (ns : List Node) (lines : List Str) (m : Option Str) :
    (((mergeLoop ns lines m).1.flatMap splitNL).count includeLine)
      = ((lines.flatMap splitNL).count includeLine)
        + (((ns.flatMap blockOf).flatMap splitNL).count includeLine) := by
  induction ns generalizing lines m with
  | nil => simp [mergeLoop]
  | cons n ns' ih =>
    simp only [mergeLoop]
    by_cases hn : isMainNode n.contents
    · simp only [hn, if_pos, ih]
      simp only [List.flatMap_cons, List.flatMap_append, List.count_append]
      omega
    · simp only [hn, if_neg, Bool.false_eq_true, ite_false, ih]
      simp only [List.flatMap_cons, List.flatMap_append, List.count_append]
      omega

theorem blocks_count_include_zero (ns : List Node)
    (h : ∀ x ∈ ns, ('\n' : Char) ∉ x.path ∧ includeLine ∉ splitNL x.contents) :
    ((ns.flatMap blockOf).flatMap splitNL).count includeLine = 0 := by
  induction ns with
  | nil => rfl
  | cons n ns' ih =>
    obtain ⟨hp, hc⟩ := h n (List.mem_cons_self n ns')
    have hmarker : splitNL (fragMarker n.path) = [fragMarker n.path] :=
      splitNL_of_no_nl _ (no_nl_fragMarker _ hp)
    simp only [List.flatMap_cons, List.flatMap_append, List.count_append, blockOf,
               hmarker]
    rw [ih (fun x hx => h x (List.mem_cons_of_mem n hx))]
    have h1 : ([fragMarker n.path] : List Str).count includeLine = 0 := by
      simp [List.count_cons, fragMarker_ne_include]
    have h2 : (splitNL n.contents).count includeLine = 0 :=
      List.count_eq_zero.mpr hc
    simp only [List.flatMap_cons, List.flatMap_nil, List.append_nil, List.count_nil,
               List.count_append, h1, h2]

/-- C9 counterexample: a fragment whose own text is the platform include line
makes the merged unit contain the directive twice, refuting the exactly-once
claim. -/
theorem merge_include_duplicated :
    (merge [⟨chars "a.ino", chars "#include <Arduino.h>"⟩]).toOption.map
        (fun r => r.1.map (fun s => (splitNL s).count includeLine))
      = some (some 2) := by decide

/-- C9 (amended): the merged unit of any non-empty fragment collection begins
with the platform include directive; it contains the directive exactly once
provided no fragment's own text contains that directive line (and fragment
paths carry no embedded newline). -/
theorem mergeLoop_len (ns : List Node) (lines : List Str) (m : Option Str) :
    (mergeLoop ns lines m).1.length = lines.length + 2 * ns.length := by
  induction ns generalizing lines m with
  | nil => simp [mergeLoop]
  | cons n ns' ih =>
    simp only [mergeLoop]
    by_cases hn : isMainNode n.contents
    · simp [hn, ih, blockOf]; omega
    · simp [hn, ih, blockOf]; omega

theorem merge_include_first (n0 : Node) (ns : List Node) :
    ∃ s mi, merge (n0 :: ns) = Except.ok (some s, mi) ∧
      (splitNL s).head? = some includeLine ∧
      ((∀ x ∈ n0 :: ns, ('\n' : Char) ∉ x.path ∧ includeLine ∉ splitNL x.contents) →
        (splitNL s).count includeLine = 1) := by
  rcases hloop : mergeLoop (n0 :: ns) [] none with ⟨lines, m⟩
  have hne : lines ≠ [] := by
    have hl := mergeLoop_len (n0 :: ns) [] none
    rw [hloop] at hl
    intro h
    rw [h] at hl
    simp [List.length_cons] at hl
  have hsplit : splitNL (joinNL (includeLine :: lines)) =
      (includeLine :: lines).flatMap splitNL :=
    splitNL_joinNL_flat _ (by simp)
  refine ⟨joinNL (includeLine :: lines), m.getD n0.path, ?_, ?_, ?_⟩
  · cases lines with
    | nil => exact absurd rfl hne
    | cons a as => simp only [merge, hloop]; simp
  · rw [hsplit]
    simp only [List.flatMap_cons]
    rw [splitNL_of_no_nl includeLine (by decide)]
    rfl
  · intro h
    rw [hsplit]
    simp only [List.flatMap_cons, List.count_append]
    rw [splitNL_of_no_nl includeLine (by decide)]
    have hz : (lines.flatMap splitNL).count includeLine = 0 := by
      have hc := mergeLoop_count_include (n0 :: ns) [] none
      rw [hloop] at hc
      rw [blocks_count_include_zero (n0 :: ns) h] at hc
      simpa using hc
    rw [hz]
    simp [List.count_cons]

/-! ### Claim C5: prototype synthesis and the text after the insertion point -/

theorem pyStrip_decomp (s : Str) :
    ∃ a b, s = a ++ pyStrip s ++ b ∧
      (∀ c ∈ a, isWS c = true) ∧ (∀ c ∈ b, isWS c = true) := by
  refine ⟨s.takeWhile isWS, ((s.dropWhile isWS).reverse.takeWhile isWS).reverse,
          ?_, ?_, ?_⟩
  · conv_lhs => rw [← List.takeWhile_append_dropWhile (p := isWS) (l := s)]
    rw [List.append_assoc]
    congr 1
    rw [pyStrip]
    conv_lhs => rw [← List.reverse_reverse (s.dropWhile isWS),
      ← List.takeWhile_append_dropWhile (p := isWS) (l := (s.dropWhile isWS).reverse)]
    rw [List.reverse_append]
  · exact fun c hc => List.mem_takeWhile_imp hc
  · intro c hc
    rw [List.mem_reverse] at hc
    exact List.mem_takeWhile_imp hc

/-- C5 counterexample: for `void foo(){}⏎` the insertion point is offset 0, so
the claim demands the whole input to reappear verbatim in the output; but
`append_prototypes` strips the trailing newline of the tail, so the
insertion-point-to-end substring does not occur in the output. -/
theorem append_prototypes_strips_tail :
    protoSplitIdx (chars "void foo()\x7b\x7d\n") = 0 ∧
    occursIn (chars "void foo()\x7b\x7d\n")
        (appendPrototypes (chars "M") (chars "void foo()\x7b\x7d\n")) = false := by
  decide

/-- C5 (amended): the output of prototype synthesis ends with the input's
substring from the insertion point to the end, unchanged except that leading
and trailing whitespace of that substring is stripped; function bodies keep
their order and content, and only text before the insertion point is
otherwise modified. -/
theorem append_prototypes_frame (mainIno contents : Str)
    (h : parsePrototypes contents ≠ []) :
    ∃ pre a b,
      appendPrototypes mainIno contents
          = pre ++ pyStrip (contents.drop (protoSplitIdx contents)) ∧
      contents.drop (protoSplitIdx contents)
          = a ++ pyStrip (contents.drop (protoSplitIdx contents)) ++ b ∧
      (∀ c ∈ a, isWS c = true) ∧ (∀ c ∈ b, isWS c = true) := by
  obtain ⟨a, b, hdec, ha, hb⟩ := pyStrip_decomp (contents.drop (protoSplitIdx contents))
  rcases hp : parsePrototypes contents with _ | ⟨p, ps⟩
  · exact absurd hp h
  · refine ⟨pyStrip (contents.take (protoSplitIdx contents)) ++ '\n' ::
        (protoLine (p :: ps) ++ '\n' ::
          (lineDirective (getTotalLines (contents.take (protoSplitIdx contents)))
              (replBS mainIno) ++ ['\n'])),
      a, b, ?_, hdec, ha, hb⟩
    simp only [appendPrototypes, hp]
    simp [joinNL, List.append_assoc]

/-- C5 witness: the amended frame property at the concrete input
`void foo(){}⏎`. -/
theorem append_prototypes_frame_witness :
    parsePrototypes (chars "void foo()\x7b\x7d\n") ≠ [] ∧
    ∃ pre a b,
      appendPrototypes (chars "M") (chars "void foo()\x7b\x7d\n")
          = pre ++ pyStrip ((chars "void foo()\x7b\x7d\n").drop
              (protoSplitIdx (chars "void foo()\x7b\x7d\n"))) ∧
      (chars "void foo()\x7b\x7d\n").drop (protoSplitIdx (chars "void foo()\x7b\x7d\n"))
          = a ++ pyStrip ((chars "void foo()\x7b\x7d\n").drop
              (protoSplitIdx (chars "void foo()\x7b\x7d\n"))) ++ b ∧
      (∀ c ∈ a, isWS c = true) ∧ (∀ c ∈ b, isWS c = true) :=
  ⟨by decide, append_prototypes_frame (chars "M") (chars "void foo()\x7b\x7d\n") (by decide)⟩

/-! ### Lemmas about decimal rendering and directive parsing -/

theorem digitChar_isDigit {n : Nat} (h : n < 10) : (digitChar n).isDigit = true := by
  interval_cases n <;> decide

theorem digitChar_toNat {n : Nat} (h : n < 10) : (digitChar n).toNat = 48 + n := by
  interval_cases n <;> decide

theorem digitsToNat_concat (xs : Str) (c : Char) :
    digitsToNat (xs ++ [c]) = digitsToNat xs * 10 + (c.toNat - 48) := by
  simp [digitsToNat, List.foldl_append]

theorem natToStrAux_spec :
    ∀ (fuel n : Nat), n < fuel →
      (∀ c ∈ natToStrAux fuel n, c.isDigit = true) ∧
      digitsToNat (natToStrAux fuel n) = n := by
  intro fuel
  induction fuel with
  | zero => intro n h; omega
  | succ fuel ih =>
    intro n h
    by_cases h10 : n < 10
    · refine ⟨?_, ?_⟩
      · intro c hc
        simp only [natToStrAux, if_pos h10, List.mem_singleton] at hc
        rw [hc]; exact digitChar_isDigit h10
      · simp only [natToStrAux, if_pos h10]
        rw [show ([digitChar n] : Str) = [] ++ [digitChar n] from rfl, digitsToNat_concat]
        simp [digitsToNat, digitChar_toNat h10]
    · have hdiv : n / 10 < fuel := by
        have := Nat.div_lt_self (by omega : 0 < n) (by omega : 1 < 10)
        omega
      obtain ⟨ihd, ihv⟩ := ih (n / 10) hdiv
      refine ⟨?_, ?_⟩
      · intro c hc
        simp only [natToStrAux, if_neg h10, List.mem_append, List.mem_singleton] at hc
        rcases hc with hc | hc
        · exact ihd c hc
        · rw [hc]; exact digitChar_isDigit (Nat.mod_lt _ (by omega))
      · simp only [natToStrAux, if_neg h10]
        rw [digitsToNat_concat, ihv, digitChar_toNat (Nat.mod_lt _ (by omega))]
        omega

theorem natToStr_digits (n : Nat) : ∀ c ∈ natToStr n, c.isDigit = true :=
  (natToStrAux_spec (n + 1) n (by omega)).1

theorem digitsToNat_natToStr (n : Nat) : digitsToNat (natToStr n) = n :=
  (natToStrAux_spec (n + 1) n (by omega)).2

theorem natToStr_ne_nil (n : Nat) : natToStr n ≠ [] := by
  rw [natToStr, natToStrAux]
  by_cases h10 : n < 10 <;> simp [h10]

theorem ne_of_isDigit {c : Char} (h : c.isDigit = true) {d : Char}
    (hd : d.isDigit = false) : c ≠ d := by
  intro he; rw [he] at h; rw [h] at hd; cases hd

theorem isDigits_natToStr (n : Nat) : isDigits (natToStr n) = true := by
  rw [isDigits]
  cases hn : natToStr n with
  | nil => exact absurd hn (natToStr_ne_nil n)
  | cons a as =>
    simp only [List.isEmpty_cons, Bool.not_false, Bool.true_and]
    refine List.all_eq_true.mpr ?_
    intro c hc
    rw [← hn] at hc
    exact natToStr_digits n c hc

theorem splitSpAux_ne_nil (s : Str) : ∀ (m : Nat) (cur : Str), splitSpAux s m cur ≠ [] := by
  induction s with
  | nil => intro m cur; simp [splitSpAux]
  | cons c cs ih =>
    intro m cur
    cases m with
    | zero => simp [splitSpAux]
    | succ m' =>
      by_cases hc : c = ' '
      · simp [splitSpAux, hc]
      · simp only [splitSpAux, if_neg hc]
        exact ih (m' + 1) (c :: cur)

theorem splitSpAux_no_space (D : Str) :
    ∀ (cur : Str), (∀ c ∈ D, c ≠ ' ') → ∀ (R : Str) (m : Nat),
      splitSpAux (D ++ ' ' :: R) (m + 1) cur = (cur.reverse ++ D) :: splitSpAux R m [] := by
  induction D with
  | nil => intro cur _ R m; simp [splitSpAux]
  | cons c cs ih =>
    intro cur hD R m
    have hc : c ≠ ' ' := hD c (List.mem_cons_self c cs)
    simp only [List.cons_append, splitSpAux, if_neg hc, List.append_eq]
    rw [ih (c :: cur) (fun x hx => hD x (List.mem_cons_of_mem c hx)) R m]
    simp

theorem parse_marker_shape (W' : Str) (hW : ∀ c ∈ W', c ≠ ' ') (n : Nat) (p : Str) :
    parsePreprocLineNum (('#' :: W') ++ ' ' :: (natToStr n ++ ' ' :: p)) = some n := by
  have hd : ∀ c ∈ natToStr n, c ≠ ' ' :=
    fun c hc => ne_of_isDigit (natToStr_digits n c hc) (by decide)
  have h1 : splitSpAux (('#' :: W') ++ ' ' :: (natToStr n ++ ' ' :: p)) 3 []
      = ('#' :: W') :: natToStr n :: splitSpAux p 1 [] := by
    rw [splitSpAux_no_space ('#' :: W') []
          (fun c hc => by
            rcases List.mem_cons.mp hc with hc | hc
            · rw [hc]; decide
            · exact hW c hc)
          (natToStr n ++ ' ' :: p) 2]
    rw [splitSpAux_no_space (natToStr n) [] hd p 1]
    simp
  have hlen : (('#' :: W') :: natToStr n :: splitSpAux p 1 []).length > 2 := by
    have := splitSpAux_ne_nil p 1 []
    cases hs : splitSpAux p 1 [] with
    | nil => exact absurd hs this
    | cons a as => simp [List.length_cons]
  rw [parsePreprocLineNum]
  simp only [List.cons_append, List.head?_cons, if_pos rfl]
  rw [show pySplitSp ('#' :: (W' ++ ' ' :: (natToStr n ++ ' ' :: p))) 3
        = ('#' :: W') :: natToStr n :: splitSpAux p 1 [] by
      rw [pySplitSp, ← List.cons_append]; exact h1]
  rw [if_pos hlen]
  simp [List.getD, isDigits_natToStr, digitsToNat_natToStr]

theorem parse_hashMarker (n : Nat) (p : Str) :
    parsePreprocLineNum (hashMarker n p) = some n := by
  have h : hashMarker n p
      = ('#' :: []) ++ ' ' :: (natToStr n ++ ' ' :: ('"' :: p ++ ['"'])) := by
    simp [hashMarker, chars]
  rw [h]
  exact parse_marker_shape [] (by simp) n _

theorem parse_lineDirective (n : Nat) (p : Str) :
    parsePreprocLineNum (lineDirective n p) = some n := by
  have h : lineDirective n p
      = ('#' :: chars "line") ++ ' ' :: (natToStr n ++ ' ' :: ('"' :: p ++ ['"'])) := by
    simp [lineDirective, chars]
  rw [h]
  exact parse_marker_shape (chars "line") (by decide) n _

theorem parse_none_of_not_hash (l : Str) (h : l.head? ≠ some '#') :
    parsePreprocLineNum l = none := by
  rw [parsePreprocLineNum, if_neg h]

theorem jmlNextLn_of_not_hash (ln : Nat) (l : Str) (h : l.head? ≠ some '#') :
    jmlNextLn ln l = ln + 1 := by
  rw [jmlNextLn, parse_none_of_not_hash l h]

theorem eq_dropLast_concat_of_getLast? {l : Str} {a : Char}
    (h : l.getLast? = some a) : l = l.dropLast ++ [a] := by
  induction l with
  | nil => cases h
  | cons c cs ih =>
    cases cs with
    | nil =>
      simp only [List.getLast?_singleton, Option.some.injEq] at h
      rw [h]; rfl
    | cons c2 cs' =>
      have h' : (c2 :: cs').getLast? = some a := by
        rw [← h]; rfl
      have := ih h'
      calc c :: c2 :: cs' = c :: ((c2 :: cs').dropLast ++ [a]) := by rw [← this]
        _ = (c :: c2 :: cs').dropLast ++ [a] := by
            rw [List.dropLast_cons₂]; rfl

theorem getLast?_hashMarker (n : Nat) (p : Str) :
    (hashMarker n p).getLast? = some '"' := by
  have h : hashMarker n p
      = (chars "# " ++ natToStr n ++ chars " \"" ++ p) ++ ['"'] := by
    simp [hashMarker, chars]
  rw [h, List.getLast?_concat]

theorem getLast?_of_endsQS {l : Str} (h : endsQS l = true) :
    l.getLast? = some ';' := by
  rw [← List.head?_reverse]
  rw [endsQS] at h
  split at h
  · next heq => rw [heq]; rfl
  · cases h

theorem no_nl_hashMarker (n : Nat) (p : Str) (hp : ('\n' : Char) ∉ p) :
    ('\n' : Char) ∉ hashMarker n p := by
  intro hmem
  simp only [hashMarker, chars, List.mem_append] at hmem
  rcases hmem with ((((h | h) | h) | h) | h)
  · revert h; decide
  · exact absurd (natToStr_digits n '\n' h) (by decide)
  · revert h; decide
  · exact hp h
  · revert h; decide

/-! ### Stepping lemmas for the repairer's loop -/

theorem jmlStep_open (main : Str) (ln : Nat) (so : Bool) (acc : List Str) (l : Str)
    (h1 : l.getLast? = some '\\') (h2 : l.head? = some '"') :
    jmlStep main (ln, so, acc) l = (jmlNextLn ln l, true, l.dropLast :: acc) := by
  rw [jmlStep]; simp [h1, h2]

theorem jmlStep_extend (main : Str) (ln : Nat) (acc : List Str) (l : Str)
    (h1 : l.getLast? = some '\\') (h2 : l.head? ≠ some '"') (buf : Str) :
    jmlStep main (ln, true, buf :: acc) l
      = (jmlNextLn ln l, true, (buf ++ l.dropLast) :: acc) := by
  rw [jmlStep]; simp [h1, h2, consHead]

theorem jmlStep_plain_bs (main : Str) (ln : Nat) (acc : List Str) (l : Str)
    (h1 : l.getLast? = some '\\') (h2 : l.head? ≠ some '"') :
    jmlStep main (ln, false, acc) l = (jmlNextLn ln l, false, l :: acc) := by
  rw [jmlStep]; simp [h1, h2]

theorem jmlStep_close (main : Str) (ln : Nat) (acc : List Str) (l : Str)
    (h1 : l.getLast? ≠ some '\\') (h2 : endsQS l = true) (buf : Str) :
    jmlStep main (ln, true, buf :: acc) l
      = (jmlNextLn ln l, false,
         lineDirective (jmlNextLn ln l) (replBS main) :: (buf ++ l) :: acc) := by
  rw [jmlStep]; simp [h1, h2, consHead]

theorem jmlStep_plain (main : Str) (ln : Nat) (so : Bool) (acc : List Str) (l : Str)
    (h1 : l.getLast? ≠ some '\\') (h2 : (so && endsQS l) = false) :
    jmlStep main (ln, so, acc) l = (jmlNextLn ln l, so, l :: acc) := by
  rw [jmlStep]; simp [h1, h2]

/-- Once a line sits below the head of the accumulator, the rest of the loop
never rewrites it: the final accumulator extends the buried part unchanged,
and the head is only ever extended on its right (never when the string-open
flag is down). -/
theorem jmlFold_extend (main : Str) :
    ∀ (ls : List Str) (ln : Nat) (so : Bool) (buf : Str) (acc : List Str),
      ∃ fresh ext,
        (ls.foldl (jmlStep main) (ln, so, buf :: acc)).2.2
            = fresh ++ (buf ++ ext) :: acc ∧
        (so = false → ext = []) := by
  intro ls
  induction ls with
  | nil =>
    intro ln so buf acc
    exact ⟨[], [], by simp, fun _ => rfl⟩
  | cons l ls' ih =>
    intro ln so buf acc
    rw [List.foldl_cons]
    by_cases h1 : l.getLast? = some '\\'
    · by_cases h2 : l.head? = some '"'
      · rw [jmlStep_open main ln so (buf :: acc) l h1 h2]
        obtain ⟨f', e', hf, _⟩ := ih (jmlNextLn ln l) true l.dropLast (buf :: acc)
        refine ⟨f' ++ [l.dropLast ++ e'], [], ?_, fun _ => rfl⟩
        rw [hf]; simp [List.append_assoc]
      · cases hso : so with
        | true =>
          subst hso
          rw [jmlStep_extend main ln acc l h1 h2 buf]
          obtain ⟨f', e', hf, _⟩ := ih (jmlNextLn ln l) true (buf ++ l.dropLast) acc
          refine ⟨f', l.dropLast ++ e', ?_, ?_⟩
          · rw [hf]; simp [List.append_assoc]
          · intro hc; exact absurd hc (by decide)
        | false =>
          subst hso
          rw [jmlStep_plain_bs main ln (buf :: acc) l h1 h2]
          obtain ⟨f', e', hf, _⟩ := ih (jmlNextLn ln l) false l (buf :: acc)
          refine ⟨f' ++ [l ++ e'], [], ?_, fun _ => rfl⟩
          rw [hf]; simp [List.append_assoc]
    · by_cases h2 : (so && endsQS l) = true
      · have hso : so = true := ((Bool.and_eq_true _ _).mp h2).1
        have hq : endsQS l = true := ((Bool.and_eq_true _ _).mp h2).2
        subst hso
        rw [jmlStep_close main ln acc l h1 hq buf]
        obtain ⟨f', e', hf, he⟩ := ih (jmlNextLn ln l) false
          (lineDirective (jmlNextLn ln l) (replBS main)) ((buf ++ l) :: acc)
        refine ⟨f' ++ [lineDirective (jmlNextLn ln l) (replBS main) ++ e'], l, ?_, ?_⟩
        · rw [hf]; simp [List.append_assoc]
        · intro hc; exact absurd hc (by decide)
      · have h2' : (so && endsQS l) = false := by
          cases hb : (so && endsQS l)
          · rfl
          · exact absurd hb h2
        rw [jmlStep_plain main ln so (buf :: acc) l h1 h2']
        obtain ⟨f', e', hf, _⟩ := ih (jmlNextLn ln l) so l (buf :: acc)
        refine ⟨f' ++ [l ++ e'], [], ?_, fun _ => rfl⟩
        rw [hf]; simp [List.append_assoc]

/-- Middle lines of a split literal (continuation backslash, no opening quote,
no directive) are appended to the open buffer with their backslash stripped,
while the line counter advances one per physical line. -/
theorem jmlFold_mids (main : Str) :
    ∀ (mids : List Str) (ln : Nat) (buf : Str) (acc : List Str),
      (∀ l ∈ mids, l.getLast? = some '\\' ∧ l.head? ≠ some '"' ∧ l.head? ≠ some '#') →
      mids.foldl (jmlStep main) (ln, true, buf :: acc)
        = (ln + mids.length, true, (buf ++ mids.flatMap List.dropLast) :: acc) := by
  intro mids
  induction mids with
  | nil => intro ln buf acc _; simp
  | cons l ls ih =>
    intro ln buf acc h
    obtain ⟨h1, h2, h3⟩ := h l (List.mem_cons_self l ls)
    rw [List.foldl_cons, jmlStep_extend main ln acc l h1 h2 buf,
        jmlNextLn_of_not_hash ln l h3,
        ih (ln + 1) (buf ++ l.dropLast) acc (fun x hx => h x (List.mem_cons_of_mem l hx))]
    simp only [Prod.mk.injEq, List.flatMap_cons, List.append_assoc, List.length_cons]
    exact ⟨by omega, trivial⟩

theorem head?_append_left {a : Str} (b : Str) {c : Char} (h : a.head? = some c) :
    (a ++ b).head? = some c := by
  cases a with
  | nil => cases h
  | cons x xs => exact h

theorem head?_dropLast_of_quote_bs {l : Str} (h1 : l.head? = some '"')
    (h2 : l.getLast? = some '\\') : l.dropLast.head? = some '"' := by
  cases l with
  | nil => cases h1
  | cons c f1 =>
    have hc : c = '"' := by injection h1
    subst hc
    cases f1 with
    | nil => rw [show (['"'] : Str).getLast? = some '"' from rfl] at h2; cases h2
    | cons b t => rw [List.dropLast_cons₂]; rfl

theorem cppNums_cons_none (l : Str) (ls : List Str) (cur : Nat)
    (h : parsePreprocLineNum l = none) :
    cppNums (l :: ls) cur = some cur :: cppNums ls (cur + 1) := by
  rw [cppNums, h]

theorem cppNums_cons_some (l : Str) (ls : List Str) (cur m : Nat)
    (h : parsePreprocLineNum l = some m) :
    cppNums (l :: ls) cur = none :: cppNums ls m := by
  rw [cppNums, h]

theorem cppNums_get_after (ls : List Str) :
    ∀ (X : List Str) (cur j : Nat),
      (∀ l ∈ ls, parsePreprocLineNum l = none) →
      (cppNums (ls ++ X) cur).get? (ls.length + j)
        = (cppNums X (cur + ls.length)).get? j := by
  induction ls with
  | nil => intro X cur j _; simp
  | cons l ls' ih =>
    intro X cur j h
    rw [List.cons_append, cppNums_cons_none _ _ _ (h l (List.mem_cons_self l ls'))]
    rw [show (l :: ls').length + j = (ls'.length + j) + 1 from by
      simp [List.length_cons]; omega]
    rw [List.get?_cons_succ]
    rw [show cur + (l :: ls').length = (cur + 1) + ls'.length from by
      simp [List.length_cons]; omega]
    exact ih X (cur + 1) j (fun x hx => h x (List.mem_cons_of_mem l hx))

/-! ### Claim C3: collapsed literals keep the logical line numbering intact -/

/-- C3: when the repairer collapses a literal that a directive places at
logical line `n` and that spans `k = mids.length + 2` physical lines, the
corrective directive emitted right after the rejoined literal carries the
counter value `n + k`; line-marker semantics then assign the line that
follows the literal the same logical number `n + k` in the repaired output as
in the input. -/
theorem jml_collapse_preserves_linenum
    (main mpath first last r0 : Str) (mids rest : List Str) (n : Nat)
    (hf1 : first.head? = some '"') (hf2 : first.getLast? = some '\\')
    (hmids : ∀ l ∈ mids,
      l.getLast? = some '\\' ∧ l.head? ≠ some '"' ∧ l.head? ≠ some '#')
    (hl1 : endsQS last = true) (hl2 : last.head? ≠ some '#')
    (hr0 : r0.head? ≠ some '#') (hmp : ('\n' : Char) ∉ mpath)
    (hnl : ∀ l ∈ first :: last :: r0 :: (mids ++ rest), ('\n' : Char) ∉ l) :
    ∃ tail,
      joinMultilineStrings main
          (joinNL (hashMarker n mpath :: first :: (mids ++ last :: r0 :: rest)))
        = joinNL (hashMarker n mpath
            :: (first.dropLast ++ mids.flatMap List.dropLast ++ last)
            :: lineDirective (n + (mids.length + 2)) (replBS main) :: tail) ∧
      cppNumAt (hashMarker n mpath :: first :: (mids ++ last :: r0 :: rest))
          (mids.length + 3) = some (n + (mids.length + 2)) ∧
      cppNumAt (hashMarker n mpath
            :: (first.dropLast ++ mids.flatMap List.dropLast ++ last)
            :: lineDirective (n + (mids.length + 2)) (replBS main) :: tail) 3
        = some (n + (mids.length + 2)) := by
  have hfM : parsePreprocLineNum first = none :=
    parse_none_of_not_hash first (by rw [hf1]; decide)
  have hlM : parsePreprocLineNum last = none := parse_none_of_not_hash last hl2
  have hrM : parsePreprocLineNum r0 = none := parse_none_of_not_hash r0 hr0
  have hmidsM : ∀ l ∈ mids, parsePreprocLineNum l = none :=
    fun l hl => parse_none_of_not_hash l (hmids l hl).2.2
  have hR2ne : (mids ++ last :: r0 :: rest : List Str) ≠ [] := by simp
  -- the merged text contains a backslash-newline pair, so the slow path runs
  have hbs : hasBSNL (joinNL (hashMarker n mpath
      :: first :: (mids ++ last :: r0 :: rest))) = true := by
    rw [joinNL_cons _ _ (by simp), joinNL_cons _ _ hR2ne]
    conv_lhs => rw [eq_dropLast_concat_of_getLast? hf2]
    rw [show hashMarker n mpath ++ '\n'
          :: ((first.dropLast ++ ['\\']) ++ '\n' :: joinNL (mids ++ last :: r0 :: rest))
        = (hashMarker n mpath ++ '\n' :: first.dropLast)
            ++ '\\' :: '\n' :: joinNL (mids ++ last :: r0 :: rest) from by
      simp [List.append_assoc]]
    exact hasBSNL_of_infix _ _
  -- the merged text splits back into the given physical lines
  have hnl' : ∀ l ∈ hashMarker n mpath :: first :: (mids ++ last :: r0 :: rest),
      ('\n' : Char) ∉ l := by
    intro l hl
    simp only [List.mem_cons, List.mem_append] at hl
    rcases hl with h | h | h | h | h | h
    · subst h; exact no_nl_hashMarker n mpath hmp
    · subst h; exact hnl _ (List.mem_cons_self _ _)
    · exact hnl l (by simp [h])
    · subst h; exact hnl _ (by simp)
    · subst h; exact hnl _ (by simp)
    · exact hnl l (by simp [h])
  have hsplit : splitNL (joinNL (hashMarker n mpath
      :: first :: (mids ++ last :: r0 :: rest)))
      = hashMarker n mpath :: first :: (mids ++ last :: r0 :: rest) :=
    splitNL_joinNL_lines _ (by simp) hnl'
  -- step the fold through the marker, the opening line, the middles, the close
  have hMlast : (hashMarker n mpath).getLast? ≠ some '\\' := by
    rw [getLast?_hashMarker]; decide
  have hst1 : jmlStep main (0, false, []) (hashMarker n mpath)
      = (n, false, [hashMarker n mpath]) := by
    rw [jmlStep_plain main 0 false [] _ hMlast (by simp), jmlNextLn, parse_hashMarker]
  have hst2 : jmlStep main (n, false, [hashMarker n mpath]) first
      = (n + 1, true, [first.dropLast, hashMarker n mpath]) := by
    rw [jmlStep_open main n false [hashMarker n mpath] first hf2 hf1, jmlNextLn, hfM]
  have hstM := jmlFold_mids main mids (n + 1) first.dropLast [hashMarker n mpath] hmids
  have hlast_ne : last.getLast? ≠ some '\\' := by
    rw [getLast?_of_endsQS hl1]; decide
  have hstL : jmlStep main (n + 1 + mids.length, true,
        (first.dropLast ++ mids.flatMap List.dropLast) :: [hashMarker n mpath]) last
      = (n + 1 + mids.length + 1, false,
         lineDirective (n + 1 + mids.length + 1) (replBS main)
           :: (first.dropLast ++ mids.flatMap List.dropLast ++ last)
           :: [hashMarker n mpath]) := by
    rw [jmlStep_close main _ _ last hlast_ne hl1 _, jmlNextLn, hlM]
  have harith : n + 1 + mids.length + 1 = n + (mids.length + 2) := by omega
  rw [harith] at hstL
  -- the input-side line-number computation, shared by both remaining branches
  have hcpp_in : cppNumAt (hashMarker n mpath :: first :: (mids ++ last :: r0 :: rest))
      (mids.length + 3) = some (n + (mids.length + 2)) := by
    rw [cppNumAt, cppNums_cons_some _ _ _ _ (parse_hashMarker n mpath),
        cppNums_cons_none _ _ _ hfM]
    rw [show mids.length + 3 = (mids.length + 1) + 1 + 1 from by omega,
        List.get?_cons_succ, List.get?_cons_succ,
        cppNums_get_after mids _ _ 1 hmidsM,
        cppNums_cons_none _ _ _ hlM]
    rw [List.get?_cons_succ, cppNums_cons_none _ _ _ hrM]
    simp only [List.get?_cons_zero]
    show some (n + 1 + mids.length + 1) = some (n + (mids.length + 2))
    congr 1
  -- run the loop over the closing state and the remaining lines
  by_cases hA : r0.getLast? = some '\\' ∧ r0.head? = some '"'
  · -- the following line itself opens another literal: it is consed stripped
    have hstR : jmlStep main (n + (mids.length + 2), false,
          [lineDirective (n + (mids.length + 2)) (replBS main),
           first.dropLast ++ mids.flatMap List.dropLast ++ last,
           hashMarker n mpath]) r0
        = (n + (mids.length + 2) + 1, true,
           r0.dropLast ::
             [lineDirective (n + (mids.length + 2)) (replBS main),
              first.dropLast ++ mids.flatMap List.dropLast ++ last,
              hashMarker n mpath]) := by
      rw [jmlStep_open main _ false _ r0 hA.1 hA.2, jmlNextLn, hrM]
    obtain ⟨f', e', hf, _⟩ := jmlFold_extend main rest (n + (mids.length + 2) + 1) true
      r0.dropLast
      [lineDirective (n + (mids.length + 2)) (replBS main),
       first.dropLast ++ mids.flatMap List.dropLast ++ last,
       hashMarker n mpath]
    refine ⟨(r0.dropLast ++ e') :: f'.reverse, ?_, hcpp_in, ?_⟩
    · rw [joinMultilineStrings, if_pos hbs, hsplit]
      rw [List.foldl_cons, hst1, List.foldl_cons, hst2, List.foldl_append, hstM,
          List.foldl_cons, hstL, List.foldl_cons, hstR, hf]
      simp [List.reverse_append]
    · have ht0 : (r0.dropLast ++ e').head? = some '"' :=
        head?_append_left e' (head?_dropLast_of_quote_bs hA.2 hA.1)
      rw [cppNumAt, cppNums_cons_some _ _ _ _ (parse_hashMarker n mpath),
          cppNums_cons_none _ _ _ (parse_none_of_not_hash _ (by
            rw [head?_append_left _ (head?_append_left _
              (head?_dropLast_of_quote_bs hf1 hf2))]
            decide)),
          cppNums_cons_some _ _ _ _ (parse_lineDirective _ _),
          cppNums_cons_none _ _ _ (parse_none_of_not_hash _ (by rw [ht0]; decide))]
      rfl
  · -- the following line passes through unchanged
    have hstR : jmlStep main (n + (mids.length + 2), false,
          [lineDirective (n + (mids.length + 2)) (replBS main),
           first.dropLast ++ mids.flatMap List.dropLast ++ last,
           hashMarker n mpath]) r0
        = (n + (mids.length + 2) + 1, false,
           r0 :: [lineDirective (n + (mids.length + 2)) (replBS main),
                  first.dropLast ++ mids.flatMap List.dropLast ++ last,
                  hashMarker n mpath]) := by
      by_cases hb : r0.getLast? = some '\\'
      · have hq : r0.head? ≠ some '"' := fun hh => hA ⟨hb, hh⟩
        rw [jmlStep_plain_bs main _ _ r0 hb hq, jmlNextLn, hrM]
      · rw [jmlStep_plain main _ false _ r0 hb (by simp), jmlNextLn, hrM]
    obtain ⟨f', e', hf, he⟩ := jmlFold_extend main rest (n + (mids.length + 2) + 1) false
      r0
      [lineDirective (n + (mids.length + 2)) (replBS main),
       first.dropLast ++ mids.flatMap List.dropLast ++ last,
       hashMarker n mpath]
    rw [he rfl, List.append_nil] at hf
    refine ⟨r0 :: f'.reverse, ?_, hcpp_in, ?_⟩
    · rw [joinMultilineStrings, if_pos hbs, hsplit]
      rw [List.foldl_cons, hst1, List.foldl_cons, hst2, List.foldl_append, hstM,
          List.foldl_cons, hstL, List.foldl_cons, hstR, hf]
      simp [List.reverse_append]
    · rw [cppNumAt, cppNums_cons_some _ _ _ _ (parse_hashMarker n mpath),
          cppNums_cons_none _ _ _ (parse_none_of_not_hash _ (by
            rw [head?_append_left _ (head?_append_left _
              (head?_dropLast_of_quote_bs hf1 hf2))]
            decide)),
          cppNums_cons_some _ _ _ _ (parse_lineDirective _ _),
          cppNums_cons_none _ _ _ hrM]
      rfl

/-- C3 witness: a literal at logical line 1 split over three physical lines;
the corrective directive carries 4, and the `next();` line keeps logical
line 4 on both sides of the repair. -/
theorem jml_collapse_preserves_linenum_witness :
    ∃ tail,
      joinMultilineStrings (chars "m.ino")
          (joinNL (hashMarker 1 (chars "m.ino") :: chars "\"abc\\"
            :: ([chars "def\\"] ++ chars "ghi\";" :: chars "next();" :: [])))
        = joinNL (hashMarker 1 (chars "m.ino")
            :: ((chars "\"abc\\").dropLast
                ++ ([chars "def\\"] : List Str).flatMap List.dropLast
                ++ chars "ghi\";")
            :: lineDirective (1 + (([chars "def\\"] : List Str).length + 2))
                (replBS (chars "m.ino")) :: tail) ∧
      cppNumAt (hashMarker 1 (chars "m.ino") :: chars "\"abc\\"
            :: ([chars "def\\"] ++ chars "ghi\";" :: chars "next();" :: []))
          (([chars "def\\"] : List Str).length + 3)
        = some (1 + (([chars "def\\"] : List Str).length + 2)) ∧
      cppNumAt (hashMarker 1 (chars "m.ino")
            :: ((chars "\"abc\\").dropLast
                ++ ([chars "def\\"] : List Str).flatMap List.dropLast
                ++ chars "ghi\";")
            :: lineDirective (1 + (([chars "def\\"] : List Str).length + 2))
                (replBS (chars "m.ino")) :: tail) 3
        = some (1 + (([chars "def\\"] : List Str).length + 2)) :=
  jml_collapse_preserves_linenum (chars "m.ino") (chars "m.ino") (chars "\"abc\\")
    (chars "ghi\";") (chars "next();") [chars "def\\"] [] 1
    (by decide) (by decide) (by decide) (by decide) (by decide) (by decide)
    (by decide) (by decide)

end Piomisc
